import Mathlib

/-!
# Verification of `build_genome_map.py` (chromokin)

Shallow embedding of the genome-metadata build script.  Python strings are
modelled as Lean `String`s; the line/field splitting, whitespace stripping and
`int()` parsing used by the script are reimplemented over `List Char` so that
they mirror CPython's semantics on the ASCII data the script consumes.
`ValueError`s raised by `str.split` unpacking and by `int()` are modelled as
`Except.error` values (the spec's `FormatError`).  The builder
`build_genome_object` is modelled with an explicit allocation counter and
address heaps so that the "aliases do not share list objects" behaviour of the
`list(...)` shallow copies is expressible.
-/

/-! ## Python string primitives -/

/-- Characters treated as whitespace by `str.strip()` / `str.isspace()`
(ASCII fragment: space, tab, newline, carriage return, vertical tab,
form feed). -/
def isPySpace (c : Char) : Bool :=
  c = ' ' || c = '\t' || c = '\n' || c = '\r' || c = '\x0b' || c = '\x0c'

/-- `str.strip()` on a character list: drop whitespace from both ends. -/
def stripCh (l : List Char) : List Char :=
  ((l.dropWhile isPySpace).reverse.dropWhile isPySpace).reverse

/-- `str.strip()`. -/
def pyStrip (s : String) : String := String.mk (stripCh s.data)

/-- `str.split(sep)` with an explicit separator: split at every occurrence,
keeping empty fields (`"a\t\tb".split("\t") == ["a","","b"]`,
`"".split("\t") == [""]`). -/
def pySplitCh (sep : Char) : List Char → List (List Char)
  | [] => [[]]
  | c :: rest =>
    if c = sep then [] :: pySplitCh sep rest
    else
      match pySplitCh sep rest with
      | [] => [[c]]
      | f :: fs => (c :: f) :: fs

/-- `str.split(sep)`. -/
def pySplit (sep : Char) (s : String) : List String :=
  (pySplitCh sep s.data).map String.mk

/-- `str.splitlines()` on a character list: lines are terminated by `\n`,
`\r\n` or `\r`; a trailing terminator produces no extra empty line. -/
def splitlinesCh : List Char → List (List Char)
  | [] => []
  | '\r' :: '\n' :: rest => [] :: splitlinesCh rest
  | c :: rest =>
    if c = '\n' || c = '\r' then [] :: splitlinesCh rest
    else
      match splitlinesCh rest with
      | [] => [[c]]
      | f :: fs => (c :: f) :: fs

/-- `str.splitlines()`. -/
def pySplitlines (s : String) : List String :=
  (splitlinesCh s.data).map String.mk

/-- Decimal value of a digit character. -/
def digitVal (c : Char) : Nat := c.toNat - 48

/-- Decimal value of a list of digit characters. -/
def digitsToNat (l : List Char) : Nat :=
  l.foldl (fun acc c => acc * 10 + digitVal c) 0

/-- Validity of the tail of a base-10 digit group for `int()`: digits with
single underscores allowed only between digits. -/
def goDigits : List Char → Bool
  | [] => true
  | c :: rest =>
    if c.isDigit then goDigits rest
    else if c = '_' then
      match rest with
      | [] => false
      | d :: r => d.isDigit && goDigits r
    else false

/-- A valid base-10 digit group for `int()`: nonempty, starts with a digit,
underscores only between digits. -/
def validDigitGroup : List Char → Bool
  | [] => false
  | c :: rest => c.isDigit && goDigits rest

/-- Numeric value of a digit group (underscores removed). -/
def groupValue (l : List Char) : Nat :=
  digitsToNat (l.filter (fun c => c != '_'))

/-- Python `int(s)` for base 10 on a character list: strip whitespace,
optional single sign, then a valid digit group; `none` models the
`ValueError`. -/
def pyIntCh (l : List Char) : Option Int :=
  match stripCh l with
  | '+' :: rest => if validDigitGroup rest then some (groupValue rest) else none
  | '-' :: rest => if validDigitGroup rest then some (-(groupValue rest : Int)) else none
  | rest => if validDigitGroup rest then some (groupValue rest) else none

/-- Python `int(s)` for base 10. -/
def pyInt (s : String) : Option Int := pyIntCh s.data

/-- Python `str.isdigit()` (ASCII fragment): nonempty and all digits. -/
def pyIsDigit (s : String) : Bool :=
  !s.data.isEmpty && s.data.all Char.isDigit

/-! ## The script's data and configuration -/

/-- `ASSEMBLY_ALIAS`: alias → underlying UCSC assembly, in the dict's
insertion order. -/
def ASSEMBLY_ALIAS : List (String × String) :=
  [("hg38", "hg38"), ("grch38", "hg38"), ("hg19", "hg19"), ("grch37", "hg19")]

/-- `CANONICAL_CHROMS`: `{f"chr{i}" for i in range(1, 23)} | {"chrX", "chrY", "chrM"}`. -/
def CANONICAL_CHROMS : List String :=
  ["chr1", "chr2", "chr3", "chr4", "chr5", "chr6", "chr7", "chr8", "chr9",
   "chr10", "chr11", "chr12", "chr13", "chr14", "chr15", "chr16", "chr17",
   "chr18", "chr19", "chr20", "chr21", "chr22", "chrX", "chrY", "chrM"]

/-- `natural_chrom_key(chrom_stripped)`: `(0, int(s))` for digit strings,
otherwise `(1, {"X":23,"Y":24,"M":25,"MT":25}.get(s, 100))`. -/
def natural_chrom_key (s : String) : Nat × Nat :=
  if pyIsDigit s then (0, digitsToNat s.data)
  else (1, if s = "X" then 23 else if s = "Y" then 24 else if s = "M" then 25
           else if s = "MT" then 25 else 100)

/-- Non-strict lexicographic order on sort keys (Python tuple `<=`). -/
def chromKeyLE (a b : Nat × Nat) : Prop :=
  a.1 < b.1 ∨ (a.1 = b.1 ∧ a.2 ≤ b.2)

/-- Strict lexicographic order on sort keys (Python tuple `<`). -/
def chromKeyLT (a b : Nat × Nat) : Prop :=
  a.1 < b.1 ∨ (a.1 = b.1 ∧ a.2 < b.2)

instance (a b : Nat × Nat) : Decidable (chromKeyLE a b) := by
  unfold chromKeyLE; exact inferInstance

instance (a b : Nat × Nat) : Decidable (chromKeyLT a b) := by
  unfold chromKeyLT; exact inferInstance

/-- A record of the `chromosomes` output list:
`{"chromosome": name, "length": size}`. -/
structure ChromosomeRecord where
  chromosome : String
  length : Int
deriving DecidableEq, Repr

/-- A record of the `cytobands` output list. -/
structure CytobandRecord where
  chrom : String
  chromStart : Int
  chromEnd : Int
  name : String
  stain : String
deriving DecidableEq, Repr

/-- `chrom[3:]` when `chrom.startswith("chr")`, else `chrom` unchanged. -/
def stripChr (s : String) : String :=
  match s.data with
  | 'c' :: 'h' :: 'r' :: rest => String.mk rest
  | _ => s

/-- Python dict assignment `m[k] = v` on an insertion-ordered association
list: overwrite in place if the key exists, else append. -/
def dictInsert (m : List (String × Int)) (k : String) (v : Int) :
    List (String × Int) :=
  match m with
  | [] => [(k, v)]
  | (k', v') :: rest =>
    if k' = k then (k, v) :: rest else (k', v') :: dictInsert rest k v

/-- The ordering used by `sorted(chrom_map.items(), key=lambda kv:
natural_chrom_key(kv[0]))`. -/
def chromRel (x y : String × Int) : Prop :=
  chromKeyLE (natural_chrom_key x.1) (natural_chrom_key y.1)

instance : DecidableRel chromRel := fun x y =>
  inferInstanceAs (Decidable (chromKeyLE _ _))

instance : IsTotal (String × Int) chromRel :=
  ⟨fun a b => by unfold chromRel chromKeyLE; omega⟩

instance : IsTrans (String × Int) chromRel :=
  ⟨fun a b c => by unfold chromRel chromKeyLE; omega⟩

/-- The loop body of `load_chromosomes`: fold the non-blank lines into the
`chrom_map` dict.  A line that does not have exactly two tab-separated
fields, or a canonical-chromosome line whose size field is not an integer,
raises (`Except.error`). -/
def processSizeLines : List String → List (String × Int) →
    Except String (List (String × Int))
  | [], m => .ok m
  | line :: rest, m =>
    if pyStrip line = "" then processSizeLines rest m
    else
      match pySplit '\t' line with
      | [chrom, sizeStr] =>
        if chrom ∈ CANONICAL_CHROMS then
          match pyInt sizeStr with
          | some size => processSizeLines rest (dictInsert m (stripChr chrom) size)
          | none => .error "FormatError: invalid literal for int()"
        else processSizeLines rest m
      | _ => .error "FormatError: expected two tab-separated fields"

/-- `load_chromosomes` on the fetched text (the spec's
`parseChromosomeSizes`): build `chrom_map`, then emit records sorted by
`natural_chrom_key`. -/
def load_chromosomes (text : String) : Except String (List ChromosomeRecord) :=
  match processSizeLines (pySplitlines text) [] with
  | .error e => .error e
  | .ok m =>
    .ok ((List.insertionSort chromRel m).map (fun kv => ⟨kv.1, kv.2⟩))

/-- The successful dict writes `chrom_map[name] = size` performed by the
`load_chromosomes` loop, in input-line order: one write per non-blank
two-field line with a canonical raw label and an integer size.  (On the
success path of `processSizeLines` no other line shapes occur.) -/
def sizeWrites : List String → List (String × Int)
  | [] => []
  | line :: rest =>
    if pyStrip line = "" then sizeWrites rest
    else
      match pySplit '\t' line with
      | [chrom, sizeStr] =>
        if chrom ∈ CANONICAL_CHROMS then
          match pyInt sizeStr with
          | some v => (stripChr chrom, v) :: sizeWrites rest
          | none => sizeWrites rest
        else sizeWrites rest
      | _ => sizeWrites rest

/-- The value of the last write to key `k` in a write sequence: later
writes shadow earlier ones. -/
def lastWrite? (ws : List (String × Int)) (k : String) : Option Int :=
  match ws with
  | [] => none
  | (k0, v0) :: rest =>
    match lastWrite? rest k with
    | some v => some v
    | none => if k0 = k then some v0 else none

/-- The loop body of `load_cytobands`: one record per non-blank line, in
file order.  A line that does not have exactly five tab-separated fields,
or whose start/end field is not an integer, raises (`Except.error`). -/
def processCytoLines : List String → Except String (List CytobandRecord)
  | [] => .ok []
  | line :: rest =>
    if pyStrip line = "" then processCytoLines rest
    else
      match pySplit '\t' line with
      | [chrom, startStr, endStr, name, stain] =>
        match pyInt startStr with
        | none => .error "FormatError: invalid literal for int()"
        | some s =>
          match pyInt endStr with
          | none => .error "FormatError: invalid literal for int()"
          | some e =>
            match processCytoLines rest with
            | .error err => .error err
            | .ok l => .ok (⟨chrom, s, e, name, stain⟩ :: l)
      | _ => .error "FormatError: expected five tab-separated fields"

/-- `load_cytobands` on the fetched text (the spec's `parseCytobands`). -/
def load_cytobands (text : String) : Except String (List CytobandRecord) :=
  processCytoLines (pySplitlines text)

/-- A cytoband record matches a source line: the line has exactly the five
fields, with `chrom`, `name`, `stain` taken verbatim and start/end the
`int()` values of the middle fields. -/
def cytoLineMatches (line : String) (r : CytobandRecord) : Prop :=
  ∃ sStr eStr, pySplit '\t' line = [r.chrom, sStr, eStr, r.name, r.stain] ∧
    pyInt sStr = some r.chromStart ∧ pyInt eStr = some r.chromEnd

/-! ## The builder

`build_genome_object` iterates `ASSEMBLY_ALIAS.items()` with a per-assembly
cache.  The `list(...)` shallow copies of line 135-136 of the source are
modelled by an allocation counter: each alias's two output lists are stored
at fresh addresses in two heaps, so sharing (or its absence) between aliases
is expressible.  Each cache miss performs one remote fetch pair: it is
recorded in `fetchLog`. -/

/-- The two parsed lists for one canonical assembly. -/
structure AssemblyMetadata where
  chromosomes : List ChromosomeRecord
  cytobands : List CytobandRecord
deriving DecidableEq, Repr

/-- Lookup in an association list (Python dict read `d[k]` / `k in d`). -/
def assocLookup {κ α : Type} [DecidableEq κ] : List (κ × α) → κ → Option α
  | [], _ => none
  | (k', v) :: rest, k => if k' = k then some v else assocLookup rest k

/-- Replace the value stored at address `a` (the model of an in-place
mutation of the list object living at `a`). -/
def alistUpdate {α : Type} : List (Nat × α) → Nat → α → List (Nat × α)
  | [], _, _ => []
  | (k, v) :: rest, a, w => if k = a then (k, w) :: rest else (k, v) :: alistUpdate rest a w

/-- State of one run of `build_genome_object`. -/
structure BuildSt where
  cache : List (String × AssemblyMetadata)
  fetchLog : List String
  nextAddr : Nat
  chromHeap : List (Nat × List ChromosomeRecord)
  cytoHeap : List (Nat × List CytobandRecord)
  result : List (String × Nat × Nat)
deriving DecidableEq, Repr

/-- `result[label] = {"chromosomes": list(md.chromosomes), "cytobands":
list(md.cytobands)}`: copy the cached lists into two fresh addresses and
record them under the alias. -/
def allocStep (st : BuildSt) (label : String) (md : AssemblyMetadata) : BuildSt :=
  { st with
    nextAddr := st.nextAddr + 2
    chromHeap := st.chromHeap ++ [(st.nextAddr, md.chromosomes)]
    cytoHeap := st.cytoHeap ++ [(st.nextAddr + 1, md.cytobands)]
    result := st.result ++ [(label, st.nextAddr, st.nextAddr + 1)] }

/-- `cache_by_ucsc[ucsc] = {...}` after the fetch pair for `ucsc`. -/
def addCache (st : BuildSt) (ucsc : String) (md : AssemblyMetadata) : BuildSt :=
  { st with
    cache := st.cache ++ [(ucsc, md)]
    fetchLog := st.fetchLog ++ [ucsc] }

/-- The `for label, ucsc in ASSEMBLY_ALIAS.items()` loop.  `sizesOf` and
`cytoOf` are the two remote sources (§6 collaborators), giving the raw text
fetched for a canonical assembly. -/
def buildAux (sizesOf cytoOf : String → String) :
    List (String × String) → BuildSt → Except String BuildSt
  | [], st => .ok st
  | (label, ucsc) :: rest, st =>
    match assocLookup st.cache ucsc with
    | some md => buildAux sizesOf cytoOf rest (allocStep st label md)
    | none =>
      match load_chromosomes (sizesOf ucsc) with
      | .error e => .error e
      | .ok chroms =>
        match load_cytobands (cytoOf ucsc) with
        | .error e => .error e
        | .ok cytos =>
          buildAux sizesOf cytoOf rest
            (allocStep (addCache st ucsc ⟨chroms, cytos⟩) label ⟨chroms, cytos⟩)

/-- `build_genome_object()`, parameterised by the two remote sources. -/
def build_genome_object (sizesOf cytoOf : String → String) : Except String BuildSt :=
  buildAux sizesOf cytoOf ASSEMBLY_ALIAS ⟨[], [], 0, [], [], []⟩

/-- A successful build is exactly: one fetch pair for `hg38`, one for
`hg19`, and four alias entries at addresses 0-7 copying the two cached
metadata values. -/
theorem build_ok_shape (f g : String → String) (st : BuildSt)
    (h : build_genome_object f g = .ok st) :
    ∃ c38 y38 c19 y19,
      load_chromosomes (f "hg38") = .ok c38 ∧
      load_cytobands (g "hg38") = .ok y38 ∧
      load_chromosomes (f "hg19") = .ok c19 ∧
      load_cytobands (g "hg19") = .ok y19 ∧
      st = { cache := [("hg38", ⟨c38, y38⟩), ("hg19", ⟨c19, y19⟩)],
             fetchLog := ["hg38", "hg19"],
             nextAddr := 8,
             chromHeap := [(0, c38), (2, c38), (4, c19), (6, c19)],
             cytoHeap := [(1, y38), (3, y38), (5, y19), (7, y19)],
             result := [("hg38", 0, 1), ("grch38", 2, 3), ("hg19", 4, 5), ("grch37", 6, 7)] } := by
  unfold build_genome_object ASSEMBLY_ALIAS at h
  cases hc38 : load_chromosomes (f "hg38") with
  | error e => simp [buildAux, assocLookup, hc38] at h
  | ok c38 =>
    cases hy38 : load_cytobands (g "hg38") with
    | error e => simp [buildAux, assocLookup, hc38, hy38] at h
    | ok y38 =>
      cases hc19 : load_chromosomes (f "hg19") with
      | error e =>
        simp [buildAux, assocLookup, addCache, allocStep, hc38, hy38, hc19] at h
      | ok c19 =>
        cases hy19 : load_cytobands (g "hg19") with
        | error e =>
          simp [buildAux, assocLookup, addCache, allocStep, hc38, hy38, hc19, hy19] at h
        | ok y19 =>
          refine ⟨c38, y38, c19, y19, rfl, rfl, rfl, rfl, ?_⟩
          simp [buildAux, assocLookup, addCache, allocStep, hc38, hy38, hc19, hy19] at h
          exact h.symm

/-! ## Helper lemmas about the parsing primitives -/

theorem mem_stripCh {c : Char} {l : List Char} (h : c ∈ stripCh l) : c ∈ l := by
  unfold stripCh at h
  rw [List.mem_reverse] at h
  have h1 := (List.dropWhile_sublist (l := (l.dropWhile isPySpace).reverse)
    (p := isPySpace)).subset h
  rw [List.mem_reverse] at h1
  exact (List.dropWhile_sublist (l := l) (p := isPySpace)).subset h1

theorem mem_pySplitCh {sep : Char} :
    ∀ {l fld : List Char} {c : Char}, fld ∈ pySplitCh sep l → c ∈ fld → c ∈ l := by
  intro l
  induction l with
  | nil =>
    intro fld c hf hc
    simp only [pySplitCh, List.mem_singleton] at hf
    subst hf
    exact absurd hc (List.not_mem_nil c)
  | cons a rest ih =>
    intro fld c hf hc
    simp only [pySplitCh] at hf
    by_cases ha : a = sep
    · rw [if_pos ha] at hf
      rcases List.mem_cons.mp hf with rfl | hf'
      · exact absurd hc (List.not_mem_nil c)
      · exact List.mem_cons_of_mem a (ih hf' hc)
    · rw [if_neg ha] at hf
      cases hr : pySplitCh sep rest with
      | nil =>
        rw [hr] at hf
        simp only [List.mem_singleton] at hf
        subst hf
        have hca := List.mem_singleton.mp hc
        subst hca
        exact List.mem_cons_self _ _
      | cons f fs =>
        rw [hr] at hf
        rcases List.mem_cons.mp hf with rfl | hf'
        · rcases List.mem_cons.mp hc with rfl | hc'
          · exact List.mem_cons_self c rest
          · have hfm : f ∈ pySplitCh sep rest := by
              rw [hr]; exact List.mem_cons_self f fs
            exact List.mem_cons_of_mem a (ih hfm hc')
        · have hfm : fld ∈ pySplitCh sep rest := by
            rw [hr]; exact List.mem_cons_of_mem f hf'
          exact List.mem_cons_of_mem a (ih hfm hc)

theorem mem_splitlinesCh :
    ∀ {l line : List Char} {c : Char}, line ∈ splitlinesCh l → c ∈ line → c ∈ l := by
  intro l
  induction l using splitlinesCh.induct with
  | case1 =>
    intro line _ hf _
    exact absurd hf (List.not_mem_nil line)
  | case2 rest ih =>
    intro line c hf hc
    rw [splitlinesCh.eq_2] at hf
    rcases List.mem_cons.mp hf with rfl | hf'
    · exact absurd hc (List.not_mem_nil c)
    · exact List.mem_cons_of_mem _ (List.mem_cons_of_mem _ (ih hf' hc))
  | case3 a rest hno hb ih =>
    intro line c hf hc
    rw [splitlinesCh.eq_3 a rest hno, if_pos hb] at hf
    rcases List.mem_cons.mp hf with rfl | hf'
    · exact absurd hc (List.not_mem_nil c)
    · exact List.mem_cons_of_mem a (ih hf' hc)
  | case4 a rest hno hb heq ih =>
    intro line c hf hc
    rw [splitlinesCh.eq_3 a rest hno, if_neg hb, heq] at hf
    simp only [List.mem_singleton] at hf
    subst hf
    have hca := List.mem_singleton.mp hc
    subst hca
    exact List.mem_cons_self _ _
  | case5 a rest hno hb f fs heq ih =>
    intro line c hf hc
    rw [splitlinesCh.eq_3 a rest hno, if_neg hb, heq] at hf
    rcases List.mem_cons.mp hf with rfl | hf'
    · rcases List.mem_cons.mp hc with rfl | hc'
      · exact List.mem_cons_self c rest
      · have hfm : f ∈ splitlinesCh rest := by
          rw [heq]; exact List.mem_cons_self f fs
        exact List.mem_cons_of_mem a (ih hfm hc')
    · have hfm : line ∈ splitlinesCh rest := by
        rw [heq]; exact List.mem_cons_of_mem f hf'
      exact List.mem_cons_of_mem a (ih hfm hc)

/-- A field produced by `pySplit` only contains characters of the line. -/
theorem mem_of_mem_pySplit {sep : Char} {line fld : String} {c : Char}
    (hf : fld ∈ pySplit sep line) (hc : c ∈ fld.data) : c ∈ line.data := by
  unfold pySplit at hf
  obtain ⟨fl, hfl, rfl⟩ := List.mem_map.mp hf
  exact mem_pySplitCh hfl hc

/-- A line produced by `pySplitlines` only contains characters of the text. -/
theorem mem_of_mem_pySplitlines {text line : String} {c : Char}
    (hl : line ∈ pySplitlines text) (hc : c ∈ line.data) : c ∈ text.data := by
  unfold pySplitlines at hl
  obtain ⟨ll, hll, rfl⟩ := List.mem_map.mp hl
  exact mem_splitlinesCh hll hc

/-- `int()` of a string with no minus sign is non-negative. -/
theorem pyInt_nonneg {s : String} {v : Int}
    (hno : '-' ∉ s.data) (h : pyInt s = some v) : 0 ≤ v := by
  unfold pyInt pyIntCh at h
  split at h
  case _ rest heq =>
    split at h
    · cases h; exact Int.ofNat_nonneg _
    · cases h
  case _ rest heq =>
    exact absurd (mem_stripCh (heq ▸ List.mem_cons_self '-' rest)) hno
  case _ rest h1 h2 =>
    split at h
    · cases h; exact Int.ofNat_nonneg _
    · cases h

/-! ## Helper lemmas about `dictInsert` and `processSizeLines` -/

theorem dictInsert_mem_keys {m : List (String × Int)} {k a : String} {v : Int} :
    a ∈ (dictInsert m k v).map Prod.fst ↔ a ∈ m.map Prod.fst ∨ a = k := by
  induction m with
  | nil => simp [dictInsert, eq_comm]
  | cons p rest ih =>
    obtain ⟨k', v'⟩ := p
    by_cases hk : k' = k
    · subst hk
      simp [dictInsert, eq_comm]
      tauto
    · simp only [dictInsert, if_neg hk, List.map_cons, List.mem_cons, ih]
      tauto

theorem dictInsert_keys_nodup {m : List (String × Int)} {k : String} {v : Int}
    (h : (m.map Prod.fst).Nodup) : ((dictInsert m k v).map Prod.fst).Nodup := by
  induction m with
  | nil => simp [dictInsert]
  | cons p rest ih =>
    obtain ⟨k', v'⟩ := p
    simp only [List.map_cons, List.nodup_cons] at h
    by_cases hk : k' = k
    · subst hk
      simpa [dictInsert, List.nodup_cons] using h
    · simp only [dictInsert, if_neg hk, List.map_cons, List.nodup_cons]
      refine ⟨fun hmem => ?_, ih h.2⟩
      rcases dictInsert_mem_keys.mp hmem with hmem' | rfl
      · exact h.1 hmem'
      · exact hk rfl

theorem dictInsert_values {m : List (String × Int)} {k : String} {v : Int}
    {P : Int → Prop} (hm : ∀ p ∈ m, P p.2) (hv : P v) :
    ∀ p ∈ dictInsert m k v, P p.2 := by
  induction m with
  | nil =>
    intro p hp
    simp only [dictInsert, List.mem_singleton] at hp
    subst hp
    exact hv
  | cons q rest ih =>
    obtain ⟨k', v'⟩ := q
    intro p hp
    simp only [dictInsert] at hp
    by_cases hk : k' = k
    · rw [if_pos hk] at hp
      rcases List.mem_cons.mp hp with rfl | hp'
      · exact hv
      · exact hm p (List.mem_cons_of_mem _ hp')
    · rw [if_neg hk] at hp
      rcases List.mem_cons.mp hp with rfl | hp'
      · exact hm _ (List.mem_cons_self _ _)
      · exact ih (fun q hq => hm q (List.mem_cons_of_mem _ hq)) p hp'

/-- On a successful parse, every non-blank line had exactly two fields and,
when its raw label was canonical, an integer-parseable size field. -/
theorem processSizeLines_ok_lines {lines : List String} :
    ∀ {m m' : List (String × Int)}, processSizeLines lines m = .ok m' →
    ∀ line ∈ lines, pyStrip line ≠ "" →
      ∃ chrom sizeStr, pySplit '\t' line = [chrom, sizeStr] ∧
        (chrom ∈ CANONICAL_CHROMS → ∃ v, pyInt sizeStr = some v) := by
  induction lines with
  | nil =>
    intro m m' _ line hl
    exact absurd hl (List.not_mem_nil line)
  | cons l0 rest ih =>
    intro m m' h line hl hnb
    by_cases h0 : pyStrip l0 = ""
    · simp only [processSizeLines, if_pos h0] at h
      rcases List.mem_cons.mp hl with rfl | hmem
      · exact absurd h0 hnb
      · exact ih h line hmem hnb
    · rcases hsp : pySplit '\t' l0 with _ | ⟨c0, _ | ⟨s0, _ | ⟨x0, t0⟩⟩⟩ <;>
        simp only [processSizeLines, if_neg h0, hsp] at h <;>
        try exact Except.noConfusion h
      by_cases hcan : c0 ∈ CANONICAL_CHROMS
      · rw [if_pos hcan] at h
        cases hint : pyInt s0 with
        | none => rw [hint] at h; cases h
        | some v =>
          rw [hint] at h
          rcases List.mem_cons.mp hl with rfl | hmem
          · exact ⟨c0, s0, hsp, fun _ => ⟨v, hint⟩⟩
          · exact ih h line hmem hnb
      · rw [if_neg hcan] at h
        rcases List.mem_cons.mp hl with rfl | hmem
        · exact ⟨c0, s0, hsp, fun hc => absurd hc hcan⟩
        · exact ih h line hmem hnb

/-- Keys present in the starting dict survive the fold. -/
theorem processSizeLines_keys_mono {lines : List String} :
    ∀ {m m' : List (String × Int)} {k : String}, k ∈ m.map Prod.fst →
    processSizeLines lines m = .ok m' → k ∈ m'.map Prod.fst := by
  induction lines with
  | nil =>
    intro m m' k hk h
    simp only [processSizeLines] at h
    cases h
    exact hk
  | cons l0 rest ih =>
    intro m m' k hk h
    by_cases h0 : pyStrip l0 = ""
    · simp only [processSizeLines, if_pos h0] at h
      exact ih hk h
    · rcases hsp : pySplit '\t' l0 with _ | ⟨c0, _ | ⟨s0, _ | ⟨x0, t0⟩⟩⟩ <;>
        simp only [processSizeLines, if_neg h0, hsp] at h <;>
        try exact Except.noConfusion h
      by_cases hcan : c0 ∈ CANONICAL_CHROMS
      · rw [if_pos hcan] at h
        cases hint : pyInt s0 with
        | none => rw [hint] at h; cases h
        | some v =>
          rw [hint] at h
          exact ih (dictInsert_mem_keys.mpr (.inl hk)) h
      · rw [if_neg hcan] at h
        exact ih hk h

/-- Every key of the resulting dict is a key of the starting dict or a
canonical label with the prefix stripped. -/
theorem processSizeLines_keys {lines : List String} :
    ∀ {m m' : List (String × Int)}, processSizeLines lines m = .ok m' →
    ∀ k ∈ m'.map Prod.fst, k ∈ m.map Prod.fst ∨ k ∈ CANONICAL_CHROMS.map stripChr := by
  induction lines with
  | nil =>
    intro m m' h k hk
    simp only [processSizeLines] at h
    cases h
    exact .inl hk
  | cons l0 rest ih =>
    intro m m' h k hk
    by_cases h0 : pyStrip l0 = ""
    · simp only [processSizeLines, if_pos h0] at h
      exact ih h k hk
    · rcases hsp : pySplit '\t' l0 with _ | ⟨c0, _ | ⟨s0, _ | ⟨x0, t0⟩⟩⟩ <;>
        simp only [processSizeLines, if_neg h0, hsp] at h <;>
        try exact Except.noConfusion h
      by_cases hcan : c0 ∈ CANONICAL_CHROMS
      · rw [if_pos hcan] at h
        cases hint : pyInt s0 with
        | none => rw [hint] at h; cases h
        | some v =>
          rw [hint] at h
          rcases ih h k hk with hk' | hk'
          · rcases dictInsert_mem_keys.mp hk' with hk'' | rfl
            · exact .inl hk''
            · exact .inr (List.mem_map_of_mem stripChr hcan)
          · exact .inr hk'
      · rw [if_neg hcan] at h
        exact ih h k hk

/-- The fold preserves key uniqueness. -/
theorem processSizeLines_nodup {lines : List String} :
    ∀ {m m' : List (String × Int)}, (m.map Prod.fst).Nodup →
    processSizeLines lines m = .ok m' → (m'.map Prod.fst).Nodup := by
  induction lines with
  | nil =>
    intro m m' hm h
    simp only [processSizeLines] at h
    cases h
    exact hm
  | cons l0 rest ih =>
    intro m m' hm h
    by_cases h0 : pyStrip l0 = ""
    · simp only [processSizeLines, if_pos h0] at h
      exact ih hm h
    · rcases hsp : pySplit '\t' l0 with _ | ⟨c0, _ | ⟨s0, _ | ⟨x0, t0⟩⟩⟩ <;>
        simp only [processSizeLines, if_neg h0, hsp] at h <;>
        try exact Except.noConfusion h
      by_cases hcan : c0 ∈ CANONICAL_CHROMS
      · rw [if_pos hcan] at h
        cases hint : pyInt s0 with
        | none => rw [hint] at h; cases h
        | some v =>
          rw [hint] at h
          exact ih (dictInsert_keys_nodup hm) h
      · rw [if_neg hcan] at h
        exact ih hm h

/-- A canonical two-field line with an integer size contributes its stripped
label to the resulting dict. -/
theorem processSizeLines_includes {lines : List String} :
    ∀ {m m' : List (String × Int)}, processSizeLines lines m = .ok m' →
    ∀ line ∈ lines, pyStrip line ≠ "" →
    ∀ c s v, pySplit '\t' line = [c, s] → c ∈ CANONICAL_CHROMS →
      pyInt s = some v → stripChr c ∈ m'.map Prod.fst := by
  induction lines with
  | nil =>
    intro m m' _ line hl
    exact absurd hl (List.not_mem_nil line)
  | cons l0 rest ih =>
    intro m m' h line hl hnb c s v hcs hcan hv
    by_cases h0 : pyStrip l0 = ""
    · simp only [processSizeLines, if_pos h0] at h
      rcases List.mem_cons.mp hl with rfl | hmem
      · exact absurd h0 hnb
      · exact ih h line hmem hnb c s v hcs hcan hv
    · rcases List.mem_cons.mp hl with rfl | hmem
      · simp only [processSizeLines, if_neg h0, hcs, if_pos hcan, hv] at h
        exact processSizeLines_keys_mono (dictInsert_mem_keys.mpr (.inr rfl)) h
      · rcases hsp : pySplit '\t' l0 with _ | ⟨c0, _ | ⟨s0, _ | ⟨x0, t0⟩⟩⟩ <;>
          simp only [processSizeLines, if_neg h0, hsp] at h <;>
          try exact Except.noConfusion h
        by_cases hcan0 : c0 ∈ CANONICAL_CHROMS
        · rw [if_pos hcan0] at h
          cases hint : pyInt s0 with
          | none => rw [hint] at h; cases h
          | some v0 =>
            rw [hint] at h
            exact ih h line hmem hnb c s v hcs hcan hv
        · rw [if_neg hcan0] at h
          exact ih h line hmem hnb c s v hcs hcan hv

/-- If no line contains a minus sign, all dict values stay non-negative. -/
theorem processSizeLines_values {lines : List String} :
    ∀ {m m' : List (String × Int)}, (∀ p ∈ m, 0 ≤ p.2) →
    (∀ line ∈ lines, '-' ∉ line.data) →
    processSizeLines lines m = .ok m' → ∀ p ∈ m', 0 ≤ p.2 := by
  induction lines with
  | nil =>
    intro m m' hm _ h
    simp only [processSizeLines] at h
    cases h
    exact hm
  | cons l0 rest ih =>
    intro m m' hm hno h
    have hno0 : '-' ∉ l0.data := hno l0 (List.mem_cons_self _ _)
    have hnor : ∀ line ∈ rest, '-' ∉ line.data :=
      fun line hline => hno line (List.mem_cons_of_mem _ hline)
    by_cases h0 : pyStrip l0 = ""
    · simp only [processSizeLines, if_pos h0] at h
      exact ih hm hnor h
    · rcases hsp : pySplit '\t' l0 with _ | ⟨c0, _ | ⟨s0, _ | ⟨x0, t0⟩⟩⟩ <;>
        simp only [processSizeLines, if_neg h0, hsp] at h <;>
        try exact Except.noConfusion h
      by_cases hcan : c0 ∈ CANONICAL_CHROMS
      · rw [if_pos hcan] at h
        cases hint : pyInt s0 with
        | none => rw [hint] at h; cases h
        | some v =>
          rw [hint] at h
          have hs0 : s0 ∈ pySplit '\t' l0 := by
            rw [hsp]; exact List.mem_cons_of_mem _ (List.mem_cons_self _ _)
          have hnos : '-' ∉ s0.data :=
            fun hmem => hno0 (mem_of_mem_pySplit hs0 hmem)
          exact ih (dictInsert_values hm (pyInt_nonneg hnos hint)) hnor h
      · rw [if_neg hcan] at h
        exact ih hm hnor h

/-- On success, the records correspond one-to-one, in order, to the
non-blank input lines. -/
theorem processCytoLines_forall2 {lines : List String} :
    ∀ {l : List CytobandRecord}, processCytoLines lines = .ok l →
    List.Forall₂ cytoLineMatches (lines.filter (fun li => pyStrip li != "")) l := by
  induction lines with
  | nil =>
    intro l h
    simp only [processCytoLines] at h
    cases h
    exact List.Forall₂.nil
  | cons l0 rest ih =>
    intro l h
    by_cases h0 : pyStrip l0 = ""
    · simp only [processCytoLines, if_pos h0] at h
      have hfil : (l0 :: rest).filter (fun li => pyStrip li != "") =
          rest.filter (fun li => pyStrip li != "") := by
        simp [List.filter_cons, h0]
      rw [hfil]
      exact ih h
    · have hfil : (l0 :: rest).filter (fun li => pyStrip li != "") =
          l0 :: rest.filter (fun li => pyStrip li != "") := by
        simp [List.filter_cons, h0]
      rw [hfil]
      rcases hsp : pySplit '\t' l0 with
          _ | ⟨c0, _ | ⟨s0, _ | ⟨e0, _ | ⟨n0, _ | ⟨t0, _ | ⟨x0, r0⟩⟩⟩⟩⟩⟩ <;>
        simp only [processCytoLines, if_neg h0, hsp] at h <;>
        try exact Except.noConfusion h
      cases hsI : pyInt s0 with
      | none => rw [hsI] at h; cases h
      | some sv =>
        rw [hsI] at h
        cases heI : pyInt e0 with
        | none => rw [heI] at h; cases h
        | some ev =>
          rw [heI] at h
          cases hrest : processCytoLines rest with
          | error e => rw [hrest] at h; cases h
          | ok lr =>
            rw [hrest] at h
            cases h
            exact List.Forall₂.cons ⟨s0, e0, hsp, hsI, heI⟩ (ih hrest)

/-- On a successful parse, every non-blank line had exactly five fields
with integer-parseable start and end. -/
theorem processCytoLines_ok_lines {lines : List String} :
    ∀ {l : List CytobandRecord}, processCytoLines lines = .ok l →
    ∀ line ∈ lines, pyStrip line ≠ "" →
      ∃ c s e n st, pySplit '\t' line = [c, s, e, n, st] ∧
        (∃ sv, pyInt s = some sv) ∧ ∃ ev, pyInt e = some ev := by
  induction lines with
  | nil =>
    intro l _ line hl
    exact absurd hl (List.not_mem_nil line)
  | cons l0 rest ih =>
    intro l h line hl hnb
    by_cases h0 : pyStrip l0 = ""
    · simp only [processCytoLines, if_pos h0] at h
      rcases List.mem_cons.mp hl with rfl | hmem
      · exact absurd h0 hnb
      · exact ih h line hmem hnb
    · rcases hsp : pySplit '\t' l0 with
          _ | ⟨c0, _ | ⟨s0, _ | ⟨e0, _ | ⟨n0, _ | ⟨t0, _ | ⟨x0, r0⟩⟩⟩⟩⟩⟩ <;>
        simp only [processCytoLines, if_neg h0, hsp] at h <;>
        try exact Except.noConfusion h
      cases hsI : pyInt s0 with
      | none => rw [hsI] at h; cases h
      | some sv =>
        rw [hsI] at h
        cases heI : pyInt e0 with
        | none => rw [heI] at h; cases h
        | some ev =>
          rw [heI] at h
          cases hrest : processCytoLines rest with
          | error e => rw [hrest] at h; cases h
          | ok lr =>
            rcases List.mem_cons.mp hl with rfl | hmem
            · exact ⟨c0, s0, e0, n0, t0, hsp, ⟨sv, hsI⟩, ⟨ev, heI⟩⟩
            · exact ih hrest line hmem hnb

/-- If no line contains a minus sign, all parsed coordinates are
non-negative. -/
theorem processCytoLines_values {lines : List String} :
    ∀ {l : List CytobandRecord}, (∀ line ∈ lines, '-' ∉ line.data) →
    processCytoLines lines = .ok l →
    ∀ r ∈ l, 0 ≤ r.chromStart ∧ 0 ≤ r.chromEnd := by
  induction lines with
  | nil =>
    intro l _ h r hr
    simp only [processCytoLines] at h
    cases h
    exact absurd hr (List.not_mem_nil r)
  | cons l0 rest ih =>
    intro l hno h r hr
    have hno0 : '-' ∉ l0.data := hno l0 (List.mem_cons_self _ _)
    have hnor : ∀ line ∈ rest, '-' ∉ line.data :=
      fun line hline => hno line (List.mem_cons_of_mem _ hline)
    by_cases h0 : pyStrip l0 = ""
    · simp only [processCytoLines, if_pos h0] at h
      exact ih hnor h r hr
    · rcases hsp : pySplit '\t' l0 with
          _ | ⟨c0, _ | ⟨s0, _ | ⟨e0, _ | ⟨n0, _ | ⟨t0, _ | ⟨x0, r0⟩⟩⟩⟩⟩⟩ <;>
        simp only [processCytoLines, if_neg h0, hsp] at h <;>
        try exact Except.noConfusion h
      cases hsI : pyInt s0 with
      | none => rw [hsI] at h; cases h
      | some sv =>
        rw [hsI] at h
        cases heI : pyInt e0 with
        | none => rw [heI] at h; cases h
        | some ev =>
          rw [heI] at h
          cases hrest : processCytoLines rest with
          | error e => rw [hrest] at h; cases h
          | ok lr =>
            rw [hrest] at h
            cases h
            have hs0 : s0 ∈ pySplit '\t' l0 := by
              rw [hsp]; exact List.mem_cons_of_mem _ (List.mem_cons_self _ _)
            have he0 : e0 ∈ pySplit '\t' l0 := by
              rw [hsp]
              exact List.mem_cons_of_mem _
                (List.mem_cons_of_mem _ (List.mem_cons_self _ _))
            rcases List.mem_cons.mp hr with rfl | hmem
            · exact ⟨pyInt_nonneg (fun hm => hno0 (mem_of_mem_pySplit hs0 hm)) hsI,
                     pyInt_nonneg (fun hm => hno0 (mem_of_mem_pySplit he0 hm)) heI⟩
            · exact ih hnor hrest r hmem

/-- Projecting the display labels out of the emitted records recovers the
dict keys. -/
theorem map_chromosome_records (m : List (String × Int)) :
    (m.map (fun kv => (⟨kv.1, kv.2⟩ : ChromosomeRecord))).map (·.chromosome) =
      m.map Prod.fst := by
  induction m with
  | nil => rfl
  | cons p r ih => simp [ih]

/-- Lookup after a dict write: the written key reads back the new value,
every other key is unaffected. -/
theorem assocLookup_dictInsert (m : List (String × Int)) (k k' : String) (v : Int) :
    assocLookup (dictInsert m k v) k' = if k' = k then some v else assocLookup m k' := by
  induction m with
  | nil =>
    by_cases h : k' = k
    · simp [dictInsert, assocLookup, h]
    · have h' : ¬ k = k' := fun e => h (Eq.symm e)
      simp [dictInsert, assocLookup, h, h']
  | cons p rest ih =>
    obtain ⟨k0, v0⟩ := p
    by_cases hk : k0 = k
    · subst hk
      by_cases h : k' = k0
      · subst h
        simp [dictInsert, assocLookup]
      · have h' : ¬ k0 = k' := fun e => h (Eq.symm e)
        simp [dictInsert, assocLookup, h, h']
    · by_cases h : k' = k
      · subst h
        have h0 : ¬ k0 = k' := hk
        simp [dictInsert, assocLookup, hk, h0, ih]
      · by_cases h2 : k0 = k'
        · simp [dictInsert, assocLookup, hk, h2, h]
        · simp [dictInsert, assocLookup, hk, h2, h, ih]

/-- In a dict with duplicate-free keys, membership determines the lookup. -/
theorem assocLookup_of_mem_nodup {m : List (String × Int)} {k : String} {v : Int}
    (hnd : (m.map Prod.fst).Nodup) (hm : (k, v) ∈ m) :
    assocLookup m k = some v := by
  induction m with
  | nil => exact absurd hm (List.not_mem_nil _)
  | cons p rest ih =>
    obtain ⟨k0, v0⟩ := p
    simp only [List.map_cons, List.nodup_cons] at hnd
    rcases List.mem_cons.mp hm with heq | hmem
    · injection heq with h1 h2
      subst h1
      subst h2
      simp [assocLookup]
    · have hk0 : k0 ≠ k := by
        intro e
        subst e
        exact hnd.1 (List.mem_map_of_mem Prod.fst hmem)
      simp only [assocLookup, if_neg hk0]
      exact ih hnd.2 hmem

/-- The fold implements last-occurrence-wins: after a successful parse,
looking up any key in the final dict yields the value of the last write to
that key, falling back to the starting dict when the key is never written. -/
theorem processSizeLines_lastWrite {lines : List String} :
    ∀ {m0 m' : List (String × Int)}, processSizeLines lines m0 = .ok m' →
    ∀ k, assocLookup m' k =
      (lastWrite? (sizeWrites lines) k).or (assocLookup m0 k) := by
  induction lines with
  | nil =>
    intro m0 m' h k
    simp only [processSizeLines] at h
    cases h
    simp [sizeWrites, lastWrite?]
  | cons l0 rest ih =>
    intro m0 m' h k
    by_cases h0 : pyStrip l0 = ""
    · simp only [processSizeLines, if_pos h0] at h
      simpa [sizeWrites, h0] using ih h k
    · rcases hsp : pySplit '\t' l0 with _ | ⟨c0, _ | ⟨s0, _ | ⟨x0, t0⟩⟩⟩ <;>
        simp only [processSizeLines, if_neg h0, hsp] at h <;>
        try exact Except.noConfusion h
      by_cases hcan : c0 ∈ CANONICAL_CHROMS
      · rw [if_pos hcan] at h
        cases hint : pyInt s0 with
        | none => rw [hint] at h; cases h
        | some v =>
          rw [hint] at h
          have hih := ih h k
          rw [assocLookup_dictInsert] at hih
          have hsw : sizeWrites (l0 :: rest) = (stripChr c0, v) :: sizeWrites rest := by
            simp [sizeWrites, h0, hsp, hcan, hint]
          rw [hsw]
          cases hlw : lastWrite? (sizeWrites rest) k with
          | some u =>
            rw [hlw] at hih
            simp only [lastWrite?, hlw]
            simpa using hih
          | none =>
            rw [hlw] at hih
            simp only [lastWrite?, hlw]
            by_cases hk : k = stripChr c0
            · subst hk
              simpa using hih
            · have hk' : ¬ stripChr c0 = k := fun e => hk e.symm
              simp only [if_neg hk] at hih
              simp [hk', hih]
      · rw [if_neg hcan] at h
        have hsw : sizeWrites (l0 :: rest) = sizeWrites rest := by
          simp [sizeWrites, h0, hsp, hcan]
        rw [hsw]
        exact ih h k

/-! ## Claim theorems -/

/-- C1: any two distinct aliases that map to the same canonical assembly
get structurally equal chromosome and cytoband lists, stored at distinct
addresses, and overwriting the list stored for one alias is not observable
through the other alias's address. -/
theorem alias_metadata_equal_and_independent
    (f g : String → String) (st : BuildSt)
    (h : build_genome_object f g = .ok st) :
    ∀ a₁ c₁ y₁ a₂ c₂ y₂,
      (a₁, c₁, y₁) ∈ st.result → (a₂, c₂, y₂) ∈ st.result →
      a₁ ≠ a₂ →
      assocLookup ASSEMBLY_ALIAS a₁ = assocLookup ASSEMBLY_ALIAS a₂ →
      assocLookup st.chromHeap c₁ = assocLookup st.chromHeap c₂ ∧
      assocLookup st.cytoHeap y₁ = assocLookup st.cytoHeap y₂ ∧
      c₁ ≠ c₂ ∧ y₁ ≠ y₂ ∧
      (∀ v, assocLookup (alistUpdate st.chromHeap c₁ v) c₂ =
            assocLookup st.chromHeap c₂) ∧
      (∀ w, assocLookup (alistUpdate st.cytoHeap y₁ w) y₂ =
            assocLookup st.cytoHeap y₂) := by
  obtain ⟨c38, y38, c19, y19, _, _, _, _, hst⟩ := build_ok_shape f g st h
  subst hst
  intro a₁ c₁ y₁ a₂ c₂ y₂ h1 h2 hne hcanon
  simp only [List.mem_cons, List.not_mem_nil, or_false, Prod.mk.injEq] at h1 h2
  rcases h1 with ⟨rfl, rfl, rfl⟩|⟨rfl, rfl, rfl⟩|⟨rfl, rfl, rfl⟩|⟨rfl, rfl, rfl⟩ <;>
    rcases h2 with ⟨rfl, rfl, rfl⟩|⟨rfl, rfl, rfl⟩|⟨rfl, rfl, rfl⟩|⟨rfl, rfl, rfl⟩ <;>
    simp_all [assocLookup, alistUpdate, ASSEMBLY_ALIAS]

/-- Witness for C1 at a concrete pair of remote sources: the two aliases
of `hg38` hold equal chromosome lists at the distinct addresses 0 and 2,
and updating address 0 is invisible at address 2. -/
theorem alias_metadata_equal_and_independent_witness :
    ∃ st, build_genome_object (fun _ => "chr1\t10") (fun _ => "chr1\t0\t5\tp11\tgneg") =
        .ok st ∧
      assocLookup st.chromHeap 0 = assocLookup st.chromHeap 2 ∧
      (∀ v, assocLookup (alistUpdate st.chromHeap 0 v) 2 =
            assocLookup st.chromHeap 2) := by
  refine ⟨_, rfl, ?_, ?_⟩
  · exact (alias_metadata_equal_and_independent (fun _ => "chr1\t10")
      (fun _ => "chr1\t0\t5\tp11\tgneg") _ rfl "hg38" 0 1 "grch38" 2 3
      (by decide) (by decide) (by decide) rfl).1
  · exact (alias_metadata_equal_and_independent (fun _ => "chr1\t10")
      (fun _ => "chr1\t0\t5\tp11\tgneg") _ rfl "hg38" 0 1 "grch38" 2 3
      (by decide) (by decide) (by decide) rfl).2.2.2.2.1

/-- C9: one successful build performs the fetch pair at most once per
canonical identifier: the fetch log has no duplicates, and only canonical
identifiers referenced by the alias configuration are fetched. -/
theorem build_fetch_pair_at_most_once (f g : String → String) (st : BuildSt)
    (h : build_genome_object f g = .ok st) :
    st.fetchLog.Nodup ∧
    (∀ u : String, st.fetchLog.count u ≤ 1) ∧
    (∀ u : String, u ∈ st.fetchLog → ∃ a, (a, u) ∈ ASSEMBLY_ALIAS) := by
  obtain ⟨c38, y38, c19, y19, _, _, _, _, hst⟩ := build_ok_shape f g st h
  subst hst
  refine ⟨by simp, ?_, ?_⟩
  · intro u
    by_cases h38 : u = "hg38" <;> by_cases h19 : u = "hg19" <;>
      simp_all [List.count_cons]
  · intro u hu
    simp only [List.mem_cons, List.not_mem_nil, or_false] at hu
    rcases hu with rfl | rfl
    · exact ⟨"hg38", by decide⟩
    · exact ⟨"hg19", by decide⟩

/-- Witness for C9: on concrete remote sources, the canonical identifier
`hg38` is fetched at most once even though two aliases reference it. -/
theorem build_fetch_pair_at_most_once_witness :
    ∃ st, build_genome_object (fun _ => "chr1\t10") (fun _ => "chr2\t0\t5\tp11\tgneg") =
        .ok st ∧ st.fetchLog.count "hg38" ≤ 1 ∧ st.fetchLog.Nodup := by
  refine ⟨_, rfl, ?_, ?_⟩
  · exact (build_fetch_pair_at_most_once (fun _ => "chr1\t10")
      (fun _ => "chr2\t0\t5\tp11\tgneg") _ rfl).2.1 "hg38"
  · exact (build_fetch_pair_at_most_once (fun _ => "chr1\t10")
      (fun _ => "chr2\t0\t5\tp11\tgneg") _ rfl).1

/-- C8: the build is deterministic: remote sources that serve identical
raw texts yield identical catalogs (hence identical serializations). -/
theorem build_deterministic (f f' g g' : String → String)
    (hf : ∀ u, f u = f' u) (hg : ∀ u, g u = g' u) :
    build_genome_object f g = build_genome_object f' g' := by
  rw [funext hf, funext hg]

/-- Witness for C8: two runs over the same concrete raw inputs agree. -/
theorem build_deterministic_witness :
    build_genome_object (fun _ => "chr1\t10") (fun _ => "chr1\t0\t5\tp11\tgneg") =
    build_genome_object (fun u => "chr1\t10") (fun u => "chr1\t0\t5\tp11\tgneg") :=
  build_deterministic _ _ _ _ (fun _ => rfl) (fun _ => rfl)

/-- C2: the Natural Chromosome Key is a pure function of the label: digit
labels get key `(0, value)` and so sort before (and ascending among) all
non-digit labels; `X`, `Y`, `M`, `MT` rank 23, 24, 25, 25; any other
non-digit label gets rank 100 and so sorts after all of these; the emitted
record list is fully sorted by the key; on labels X,2,Y,1,M,22 the display
order is 1,2,22,X,Y,M. -/
theorem natural_key_total_order :
    (∀ s, pyIsDigit s = true → natural_chrom_key s = (0, digitsToNat s.data)) ∧
    (∀ s t, pyIsDigit s = true → pyIsDigit t = false →
      chromKeyLT (natural_chrom_key s) (natural_chrom_key t)) ∧
    (∀ s t, pyIsDigit s = true → pyIsDigit t = true →
      digitsToNat s.data < digitsToNat t.data →
      chromKeyLT (natural_chrom_key s) (natural_chrom_key t)) ∧
    (natural_chrom_key "X" = (1, 23) ∧ natural_chrom_key "Y" = (1, 24) ∧
      natural_chrom_key "M" = (1, 25) ∧ natural_chrom_key "MT" = (1, 25)) ∧
    (∀ s, pyIsDigit s = false → s ≠ "X" → s ≠ "Y" → s ≠ "M" → s ≠ "MT" →
      natural_chrom_key s = (1, 100) ∧
      chromKeyLT (natural_chrom_key "X") (natural_chrom_key s) ∧
      chromKeyLT (natural_chrom_key "Y") (natural_chrom_key s) ∧
      chromKeyLT (natural_chrom_key "M") (natural_chrom_key s)) ∧
    (∀ text l, load_chromosomes text = .ok l →
      l.Pairwise (fun r1 r2 => chromKeyLE (natural_chrom_key r1.chromosome)
        (natural_chrom_key r2.chromosome))) ∧
    load_chromosomes "chrX\t10\nchr2\t20\nchrY\t30\nchr1\t40\nchrM\t50\nchr22\t60\n" =
      .ok [⟨"1", 40⟩, ⟨"2", 20⟩, ⟨"22", 60⟩, ⟨"X", 10⟩, ⟨"Y", 30⟩, ⟨"M", 50⟩] := by
  refine ⟨?_, ?_, ?_, ⟨by decide, by decide, by decide, by decide⟩, ?_, ?_, by rfl⟩
  · intro s hs
    simp [natural_chrom_key, hs]
  · intro s t hs ht
    simp [natural_chrom_key, hs, ht, chromKeyLT]
  · intro s t hs ht hlt
    simp [natural_chrom_key, hs, ht, chromKeyLT, hlt]
  · intro s hs hX hY hM hMT
    have hkey : natural_chrom_key s = (1, 100) := by
      simp [natural_chrom_key, hs, hX, hY, hM, hMT]
    refine ⟨hkey, ?_, ?_, ?_⟩ <;> rw [hkey] <;> simp [chromKeyLT] <;> decide
  · intro text l h
    unfold load_chromosomes at h
    cases hm : processSizeLines (pySplitlines text) [] with
    | error e => rw [hm] at h; cases h
    | ok m =>
      rw [hm] at h
      cases h
      exact List.pairwise_map.mpr (List.sorted_insertionSort chromRel m)

/-- Witness for C2 at concrete labels and a concrete parse. -/
theorem natural_key_total_order_witness :
    chromKeyLT (natural_chrom_key "5") (natural_chrom_key "X") ∧
    chromKeyLT (natural_chrom_key "2") (natural_chrom_key "10") ∧
    chromKeyLT (natural_chrom_key "M") (natural_chrom_key "foo") ∧
    ∃ l, load_chromosomes "chr2\t1\nchr1\t2" = .ok l ∧
      l.Pairwise (fun r1 r2 => chromKeyLE (natural_chrom_key r1.chromosome)
        (natural_chrom_key r2.chromosome)) := by
  have h := natural_key_total_order
  refine ⟨h.2.1 "5" "X" (by decide) (by decide),
          h.2.2.1 "2" "10" (by decide) (by decide) (by decide),
          (h.2.2.2.2.1 "foo" (by decide) (by decide) (by decide) (by decide)
            (by decide)).2.2.2,
          ⟨_, rfl, h.2.2.2.2.2.1 "chr2\t1\nchr1\t2" _ rfl⟩⟩

/-- C3: two-field records with non-canonical raw labels are discarded,
canonical ones are kept with the `chr` prefix stripped, and every emitted
label is a canonical label with the prefix removed. -/
theorem chrom_canonical_filter :
    load_chromosomes "chr23\t1000" = .ok [] ∧
    load_chromosomes "chrM\t16569" = .ok [⟨"M", 16569⟩] ∧
    (∀ text l, load_chromosomes text = .ok l →
      ∀ r ∈ l, r.chromosome ∈ CANONICAL_CHROMS.map stripChr) ∧
    (∀ text l, load_chromosomes text = .ok l →
      ∀ line ∈ pySplitlines text, pyStrip line ≠ "" →
      ∀ c s v, pySplit '\t' line = [c, s] → c ∈ CANONICAL_CHROMS →
        pyInt s = some v → stripChr c ∈ l.map (·.chromosome)) := by
  refine ⟨by rfl, by rfl, ?_, ?_⟩
  · intro text l h r hr
    unfold load_chromosomes at h
    cases hm : processSizeLines (pySplitlines text) [] with
    | error e => rw [hm] at h; cases h
    | ok m =>
      rw [hm] at h
      cases h
      obtain ⟨kv, hkv, rfl⟩ := List.mem_map.mp hr
      have hkv' : kv ∈ m := (List.perm_insertionSort chromRel m).mem_iff.mp hkv
      have hk : kv.1 ∈ m.map Prod.fst := List.mem_map_of_mem Prod.fst hkv'
      rcases processSizeLines_keys hm kv.1 hk with hk' | hk'
      · simp at hk'
      · exact hk'
  · intro text l h line hline hnb c s v hcs hcan hv
    unfold load_chromosomes at h
    cases hm : processSizeLines (pySplitlines text) [] with
    | error e => rw [hm] at h; cases h
    | ok m =>
      rw [hm] at h
      cases h
      have hk : stripChr c ∈ m.map Prod.fst :=
        processSizeLines_includes hm line hline hnb c s v hcs hcan hv
      rw [map_chromosome_records]
      exact ((List.perm_insertionSort chromRel m).map Prod.fst).mem_iff.mpr hk

/-- Witness for C3's universally quantified parts at a concrete input. -/
theorem chrom_canonical_filter_witness :
    ∃ l, load_chromosomes "chrM\t9\nchrFoo\t1" = .ok l ∧
      (∀ r ∈ l, r.chromosome ∈ CANONICAL_CHROMS.map stripChr) ∧
      stripChr "chrM" ∈ l.map (·.chromosome) := by
  refine ⟨_, rfl, chrom_canonical_filter.2.2.1 "chrM\t9\nchrFoo\t1" _ rfl, ?_⟩
  exact chrom_canonical_filter.2.2.2 "chrM\t9\nchrFoo\t1" _ rfl "chrM\t9"
    (by decide) (by decide) "chrM" "9" 9 (by decide) (by decide) (by decide)

/-- C4: a non-blank chromosome-sizes line without exactly two fields, a
non-blank cytoband line without exactly five fields, or an unparseable
numeric field in a parsed record, makes the parse fail; and the line
`chr1\t1000\textra` makes the whole build fail with no catalog. -/
theorem format_error_aborts_build :
    (∀ text, (∃ line ∈ pySplitlines text, pyStrip line ≠ "" ∧
        (pySplit '\t' line).length ≠ 2) →
      ∃ e, load_chromosomes text = .error e) ∧
    (∀ text, (∃ line ∈ pySplitlines text, pyStrip line ≠ "" ∧
        ∃ c s, pySplit '\t' line = [c, s] ∧ c ∈ CANONICAL_CHROMS ∧
          pyInt s = none) →
      ∃ e, load_chromosomes text = .error e) ∧
    (∀ text, (∃ line ∈ pySplitlines text, pyStrip line ≠ "" ∧
        (pySplit '\t' line).length ≠ 5) →
      ∃ e, load_cytobands text = .error e) ∧
    (∀ text, (∃ line ∈ pySplitlines text, pyStrip line ≠ "" ∧
        ∃ c s e' n st, pySplit '\t' line = [c, s, e', n, st] ∧
          (pyInt s = none ∨ pyInt e' = none)) →
      ∃ e, load_cytobands text = .error e) ∧
    (∀ g : String → String,
      ∃ e, build_genome_object (fun _ => "chr1\t1000\textra") g = .error e) := by
  refine ⟨?_, ?_, ?_, ?_, ?_⟩
  · intro text ⟨line, hmem, hnb, hlen⟩
    cases hres : load_chromosomes text with
    | error e => exact ⟨e, rfl⟩
    | ok l =>
      exfalso
      unfold load_chromosomes at hres
      cases hm : processSizeLines (pySplitlines text) [] with
      | error e => rw [hm] at hres; cases hres
      | ok m =>
        obtain ⟨c, s, hcs, _⟩ := processSizeLines_ok_lines hm line hmem hnb
        rw [hcs] at hlen
        exact hlen rfl
  · intro text ⟨line, hmem, hnb, c, s, hcs, hcan, hnone⟩
    cases hres : load_chromosomes text with
    | error e => exact ⟨e, rfl⟩
    | ok l =>
      exfalso
      unfold load_chromosomes at hres
      cases hm : processSizeLines (pySplitlines text) [] with
      | error e => rw [hm] at hres; cases hres
      | ok m =>
        obtain ⟨c', s', hcs', hint⟩ := processSizeLines_ok_lines hm line hmem hnb
        rw [hcs] at hcs'
        obtain ⟨rfl, rfl⟩ : c = c' ∧ s = s' := by
          simpa using hcs'
        obtain ⟨v, hv⟩ := hint hcan
        rw [hnone] at hv
        cases hv
  · intro text ⟨line, hmem, hnb, hlen⟩
    cases hres : load_cytobands text with
    | error e => exact ⟨e, rfl⟩
    | ok l =>
      exfalso
      obtain ⟨c, s, e', n, st, hcs, _⟩ := processCytoLines_ok_lines hres line hmem hnb
      rw [hcs] at hlen
      exact hlen rfl
  · intro text ⟨line, hmem, hnb, c, s, e', n, st, hcs, hnone⟩
    cases hres : load_cytobands text with
    | error e => exact ⟨e, rfl⟩
    | ok l =>
      exfalso
      obtain ⟨c', s', e'', n', st', hcs', hsv, hev⟩ :=
        processCytoLines_ok_lines hres line hmem hnb
      rw [hcs] at hcs'
      obtain ⟨rfl, rfl, rfl, rfl, rfl⟩ :
          c = c' ∧ s = s' ∧ e' = e'' ∧ n = n' ∧ st = st' := by
        simpa using hcs'
      rcases hnone with hnone | hnone
      · obtain ⟨sv, hv⟩ := hsv; rw [hnone] at hv; cases hv
      · obtain ⟨ev, hv⟩ := hev; rw [hnone] at hv; cases hv
  · intro g
    exact ⟨_, rfl⟩

/-- Witness for C4: the malformed three-field line is rejected by the
parser and aborts a whole concrete build. -/
theorem format_error_aborts_build_witness :
    (∃ e, load_chromosomes "chr1\t1000\textra" = .error e) ∧
    (∃ e, build_genome_object (fun _ => "chr1\t1000\textra") (fun _ => "") =
      .error e) := by
  refine ⟨format_error_aborts_build.1 "chr1\t1000\textra"
    ⟨"chr1\t1000\textra", by decide, by decide, by decide⟩, ?_⟩
  exact format_error_aborts_build.2.2.2.2 (fun _ => "")

/-- C5: `load_cytobands` yields exactly one record per non-blank line, in
input order, with no re-sorting, deduplication or chromosome filtering: the
`chrom` field of each record is the first field of its line, verbatim. -/
theorem cytobands_preserve_input_lines (text : String) (l : List CytobandRecord)
    (h : load_cytobands text = .ok l) :
    List.Forall₂ cytoLineMatches
      ((pySplitlines text).filter (fun li => pyStrip li != "")) l ∧
    l.length = ((pySplitlines text).filter (fun li => pyStrip li != "")).length :=
  ⟨processCytoLines_forall2 h, (processCytoLines_forall2 h).length_eq.symm⟩

/-- Witness for C5: a non-canonical contig line is retained verbatim, in
input order. -/
theorem cytobands_preserve_input_lines_witness :
    ∃ l, load_cytobands "chrUn_gl000220\t0\t5\tb\tgneg\nchr1\t5\t9\tp1\tgpos50" =
        .ok l ∧
      List.Forall₂ cytoLineMatches
        ((pySplitlines "chrUn_gl000220\t0\t5\tb\tgneg\nchr1\t5\t9\tp1\tgpos50").filter
          (fun li => pyStrip li != "")) l ∧
      l.length = 2 := by
  refine ⟨_, rfl,
    (cytobands_preserve_input_lines
      "chrUn_gl000220\t0\t5\tb\tgneg\nchr1\t5\t9\tp1\tgpos50" _ rfl).1, ?_⟩
  rfl

/-- C6: the chromosome output has at most 25 records, each display label
occurs exactly once, and on duplicate canonical labels the last input line
wins: every emitted record's length is the value of the last successful
write of its label, i.e. the size from the last input line carrying that
label. -/
theorem chrom_output_bounded_unique :
    (∀ text l, load_chromosomes text = .ok l →
      l.length ≤ 25 ∧ (l.map (·.chromosome)).Nodup ∧
      ∀ r ∈ l, lastWrite? (sizeWrites (pySplitlines text)) r.chromosome =
        some r.length) ∧
    load_chromosomes "chr1\t5\nchr1\t7" = .ok [⟨"1", 7⟩] := by
  refine ⟨?_, by rfl⟩
  intro text l h
  unfold load_chromosomes at h
  cases hm : processSizeLines (pySplitlines text) [] with
  | error e => rw [hm] at h; cases h
  | ok m =>
    rw [hm] at h
    cases h
    have hnd : (m.map Prod.fst).Nodup := processSizeLines_nodup (by simp) hm
    have hsub : m.map Prod.fst ⊆ CANONICAL_CHROMS.map stripChr := by
      intro k hk
      rcases processSizeLines_keys hm k hk with hk' | hk'
      · simp at hk'
      · exact hk'
    refine ⟨?_, ?_, ?_⟩
    · have hlen : (m.map Prod.fst).length ≤ (CANONICAL_CHROMS.map stripChr).length :=
        (hnd.subperm hsub).length_le
      have h25 : (CANONICAL_CHROMS.map stripChr).length = 25 := by decide
      calc ((List.insertionSort chromRel m).map
              (fun kv => (⟨kv.1, kv.2⟩ : ChromosomeRecord))).length
          = (List.insertionSort chromRel m).length := List.length_map _ _
        _ = m.length := (List.perm_insertionSort chromRel m).length_eq
        _ = (m.map Prod.fst).length := (List.length_map _ _).symm
        _ ≤ 25 := h25 ▸ hlen
    · rw [map_chromosome_records]
      exact (((List.perm_insertionSort chromRel m).map Prod.fst).nodup_iff).mpr hnd
    · intro r hr
      obtain ⟨kv, hkv, rfl⟩ := List.mem_map.mp hr
      have hkv' : kv ∈ m := (List.perm_insertionSort chromRel m).mem_iff.mp hkv
      have hlook : assocLookup m kv.1 = some kv.2 :=
        assocLookup_of_mem_nodup hnd hkv'
      have hlast := processSizeLines_lastWrite hm kv.1
      rw [hlook] at hlast
      simpa [assocLookup] using hlast.symm

/-- Witness for C6 at a concrete parse with a duplicated label: the emitted
length is returned by the last write of that label. -/
theorem chrom_output_bounded_unique_witness :
    (∃ l, load_chromosomes "chrX\t3\nchr1\t4" = .ok l ∧
      l.length ≤ 25 ∧ (l.map (·.chromosome)).Nodup) ∧
    ∃ l, load_chromosomes "chr1\t5\nchr1\t7" = .ok l ∧
      ∀ r ∈ l, lastWrite? (sizeWrites (pySplitlines "chr1\t5\nchr1\t7"))
        r.chromosome = some r.length := by
  constructor
  · refine ⟨_, rfl, ?_, ?_⟩
    · exact (chrom_output_bounded_unique.1 "chrX\t3\nchr1\t4" _ rfl).1
    · exact (chrom_output_bounded_unique.1 "chrX\t3\nchr1\t4" _ rfl).2.1
  · refine ⟨_, rfl, ?_⟩
    exact (chrom_output_bounded_unique.1 "chr1\t5\nchr1\t7" _ rfl).2.2

/-- Counterexample to C7: the parsers perform no sign or ordering
validation.  `chr1\t-5` yields a record with negative length, and a
cytoband line with start 5 and end 3 yields a record with
`chromEnd < chromStart`. -/
theorem parse_values_unvalidated_counterexample :
    (∃ l, load_chromosomes "chr1\t-5" = .ok l ∧ ∃ r ∈ l, r.length < 0) ∧
    (∃ l, load_cytobands "chr1\t5\t3\tp1\tgneg" = .ok l ∧
      ∃ r ∈ l, ¬ r.chromStart < r.chromEnd) := by
  refine ⟨⟨_, rfl, ?_⟩, ⟨_, rfl, ?_⟩⟩
  · exact ⟨⟨"1", -5⟩, by decide, by decide⟩
  · exact ⟨⟨"chr1", 5, 3, "p1", "gneg"⟩, by decide, by decide⟩

/-- C7 amended: the records carry exactly the `int()` values of the input
fields, with no validation; in particular, whenever the input text contains
no minus sign, every emitted length and every chromStart/chromEnd is
non-negative (while `chromStart < chromEnd` is not enforced at all). -/
theorem parse_values_follow_input (text : String) :
    ('-' ∉ text.data →
      ∀ l, load_chromosomes text = .ok l → ∀ r ∈ l, 0 ≤ r.length) ∧
    ('-' ∉ text.data →
      ∀ l, load_cytobands text = .ok l →
        ∀ r ∈ l, 0 ≤ r.chromStart ∧ 0 ≤ r.chromEnd) := by
  have hlines : '-' ∉ text.data →
      ∀ line ∈ pySplitlines text, '-' ∉ line.data :=
    fun hno line hline hmem => hno (mem_of_mem_pySplitlines hline hmem)
  constructor
  · intro hno l h r hr
    unfold load_chromosomes at h
    cases hm : processSizeLines (pySplitlines text) [] with
    | error e => rw [hm] at h; cases h
    | ok m =>
      rw [hm] at h
      cases h
      obtain ⟨kv, hkv, rfl⟩ := List.mem_map.mp hr
      have hkv' : kv ∈ m := (List.perm_insertionSort chromRel m).mem_iff.mp hkv
      exact processSizeLines_values (by simp) (hlines hno) hm kv hkv'
  · intro hno l h r hr
    exact processCytoLines_values (hlines hno) h r hr

/-- Witness for the amended C7 at concrete sign-free inputs. -/
theorem parse_values_follow_input_witness :
    (∃ l, load_chromosomes "chr2\t77" = .ok l ∧ ∀ r ∈ l, 0 ≤ r.length) ∧
    (∃ l, load_cytobands "chr2\t4\t9\tq1\tgneg" = .ok l ∧
      ∀ r ∈ l, 0 ≤ r.chromStart ∧ 0 ≤ r.chromEnd) := by
  refine ⟨⟨_, rfl, ?_⟩, ⟨_, rfl, ?_⟩⟩
  · exact (parse_values_follow_input "chr2\t77").1 (by decide) _ rfl
  · exact (parse_values_follow_input "chr2\t4\t9\tq1\tgneg").2 (by decide) _ rfl

/-- C10: the canonical-set filter runs after the two-field split and before
the size parse: a two-field non-canonical line is skipped without parsing
its size field, while a canonical line with an unparseable size errors. -/
theorem filter_before_int_parse :
    (∀ line rest m chrom sizeStr, pyStrip line ≠ "" →
      pySplit '\t' line = [chrom, sizeStr] → chrom ∉ CANONICAL_CHROMS →
      processSizeLines (line :: rest) m = processSizeLines rest m) ∧
    (∀ line rest m chrom sizeStr, pyStrip line ≠ "" →
      pySplit '\t' line = [chrom, sizeStr] → chrom ∈ CANONICAL_CHROMS →
      pyInt sizeStr = none →
      ∃ e, processSizeLines (line :: rest) m = .error e) ∧
    load_chromosomes "chr99\tnot_an_int\nchr1\t7" = .ok [⟨"1", 7⟩] ∧
    (∃ e, load_chromosomes "chr1\tnot_an_int" = .error e) := by
  refine ⟨?_, ?_, by rfl, ⟨_, rfl⟩⟩
  · intro line rest m chrom sizeStr hnb hsp hcan
    simp only [processSizeLines, if_neg hnb, hsp, if_neg hcan]
  · intro line rest m chrom sizeStr hnb hsp hcan hnone
    simp only [processSizeLines, if_neg hnb, hsp, if_pos hcan, hnone]
    exact ⟨_, rfl⟩

/-- Witness for C10 at concrete lines. -/
theorem filter_before_int_parse_witness :
    processSizeLines ["chr99\tnot_an_int"] [] = processSizeLines [] [] ∧
    (∃ e, processSizeLines ["chr1\tnot_an_int"] [] = .error e) := by
  refine ⟨?_, ?_⟩
  · exact filter_before_int_parse.1 "chr99\tnot_an_int" [] [] "chr99" "not_an_int"
      (by decide) (by decide) (by decide)
  · exact filter_before_int_parse.2.1 "chr1\tnot_an_int" [] [] "chr1" "not_an_int"
      (by decide) (by decide) (by decide) (by decide)
